import Mathlib

/-!
Verification development for the talkback-mcp repository.

The core under verification is the sequential speech message queue
(src/messageQueue.ts), the tool dispatcher around it (src/index.ts),
the session registry of the multi-session server revision, and the
session storage (src/sessionStorage.ts).

Modelling conventions.
JavaScript runs single-threaded with asynchronous suspension, so the
queue is embedded as an explicit state machine: a transition function
over a state record, driven by a list of events.  Synchronous code
between two suspension points becomes one atomic transition.  The only
suspension point in the source is the await of the speak promise inside
processQueue, so the machine suspends exactly there.  Events are the
public method calls (enqueue, cancel, reset) and the settlement signals
of the pending external process (close with an exit code, or a spawn
error).  A close or error event settles the one pending speak promise;
a close of an already settled process is a no-op in the source (the
promise settles once) and is therefore modelled as a no-op transition.
Machine integers are Nat and Int.  JavaScript strings are modelled as
List Char (one element per UTF-16 unit).  Date.now() and the random id
suffix are modelled by a monotone counter: no claim depends on clock
values, only on id freshness, which the counter provides.
-/

/-- Association-list lookup keyed by String, modelling Map.prototype.get. -/
def lookupAssoc {α : Type} : List (String × α) → String → Option α
  | [], _ => none
  | (k, v) :: rest, key => if k = key then some v else lookupAssoc rest key

/-- Association-list update keyed by String, modelling Map.prototype.set:
the first binding of the key is overwritten in place, a missing key is
appended at the end, matching the insertion order of a JavaScript Map. -/
def setAssoc {α : Type} : List (String × α) → String → α → List (String × α)
  | [], key, v => [(key, v)]
  | (k, w) :: rest, key, v =>
    if k = key then (k, v) :: rest else (k, w) :: setAssoc rest key v

namespace MessageQueue

/-- QueuedMessage from src/messageQueue.ts.  The id is generated by a
monotone counter (the source uses a timestamp plus a random suffix; the
only property used anywhere is freshness).  The timestamp field holds
the counter value standing in for Date.now(). -/
structure QueuedMessage where
  id : Nat
  message : List Char
  timestamp : Nat
deriving DecidableEq, Repr

/-- State of one MessageQueue instance.  queue, isProcessing,
currentProcess and maxMessageLength are the four fields of the source
class; currentProcess is true when the field is non-null.  awaiting
records whether the processQueue drain loop is suspended on a speak
promise whose process has not yet closed; it is implicit control state
in the source (the position of the suspended coroutine).  nextId is the
id counter. -/
structure QState where
  queue : List QueuedMessage
  isProcessing : Bool
  currentProcess : Bool
  awaiting : Bool
  nextId : Nat
  maxMessageLength : Nat
deriving DecidableEq, Repr

/-- The three-character ellipsis marker appended by truncation. -/
def ellipsis : List Char := ['.', '.', '.']

/-- truncateMessage from src/messageQueue.ts: if the message length is
at most maxMessageLength it is returned unchanged, otherwise the first
maxMessageLength - 3 characters are kept and the ellipsis is appended.
JavaScript substring clamps a negative end index to 0, which Nat
subtraction reproduces exactly. -/
def truncateMessage (maxLen : Nat) (message : List Char) : List Char :=
  if message.length ≤ maxLen then message
  else message.take (maxLen - 3) ++ ellipsis

/-- Default value of the constructor parameter maxMessageLength. -/
def defaultMaxMessageLength : Nat := 500

/-- Constructor state: new MessageQueue(maxMessageLength). -/
def initState (maxLen : Nat) : QState :=
  { queue := [], isProcessing := false, currentProcess := false,
    awaiting := false, nextId := 0, maxMessageLength := maxLen }

/-- Argument vector of the spawn call in speak: spawn with command say
and the single argument message. -/
def speakSpawnArgs (message : List Char) : List (List Char) := [message]

/-- Settlement of the speak promise on a close event carrying an exit
code (none models a null code after a signal): the close handler
resolves when the code is 0 and rejects otherwise. -/
def speakSettle (code : Option Int) : Except String Unit :=
  if code = some 0 then Except.ok ()
  else Except.error "say command exited with a nonzero code"

/-- Observable executor activity: start records one spawn of the
external process with its argument vector, finish records the
settlement of the corresponding speak promise (true for resolution,
false for rejection). -/
inductive TraceEv where
  | start (args : List (List Char))
  | finish (ok : Bool)
deriving DecidableEq, Repr

/-- One iteration boundary of the while loop in processQueue: with a
non-empty queue the head is spoken, that is, the external process is
spawned (currentProcess set, loop suspends awaiting the close); with an
empty queue the loop exits and isProcessing is cleared. -/
def loopJump (st : QState) : QState × List TraceEv :=
  match st.queue with
  | [] => ({ st with isProcessing := false }, [])
  | m :: _ =>
    ({ st with currentProcess := true, awaiting := true },
     [TraceEv.start (speakSpawnArgs m.message)])

/-- enqueue from src/messageQueue.ts: truncate, build the entry, push
it, and if not already processing start processQueue, which runs
synchronously up to the first await: it sets isProcessing and spawns
the head.  Pushing does not change isProcessing, so the guard is
equivalently tested on the pre-push state.  Returns the queued entry. -/
def enqueue (st : QState) (message : List Char) : QueuedMessage × QState × List TraceEv :=
  let qm : QueuedMessage :=
    { id := st.nextId,
      message := truncateMessage st.maxMessageLength message,
      timestamp := st.nextId }
  if st.isProcessing then
    (qm, { st with queue := st.queue ++ [qm], nextId := st.nextId + 1 }, [])
  else
    let res := loopJump
      { st with queue := st.queue ++ [qm], nextId := st.nextId + 1,
                isProcessing := true }
    (qm, res.1, res.2)

/-- cancel from src/messageQueue.ts: findIndex over the queue array by
id, splice out one element when found and return true, otherwise return
false. -/
def cancel (st : QState) (messageId : Nat) : QState × Bool :=
  match st.queue.findIdx? (fun m => m.id == messageId) with
  | some i => ({ st with queue := st.queue.eraseIdx i }, true)
  | none => (st, false)

/-- stopCurrentPlayback from src/messageQueue.ts: kill the current
process if one is stored and null the field.  The kill signal makes the
external process close later; that close is delivered as a subsequent
close event, so awaiting is not cleared here. -/
def stopCurrentPlayback (st : QState) : QState :=
  if st.currentProcess then { st with currentProcess := false } else st

/-- reset from src/messageQueue.ts: empty the queue, then stop the
current playback. -/
def reset (st : QState) : QState :=
  stopCurrentPlayback { st with queue := [] }

/-- getStatus from src/messageQueue.ts: queue length, the processing
flag, and a defensive copy of the queue array (in this value-semantics
model the copy is the list value itself). -/
def getStatus (st : QState) : Nat × Bool × List QueuedMessage :=
  (st.queue.length, st.isProcessing, st.queue)

/-- Resumption of the suspended drain loop after the pending speak
promise settles: the close (or error) handler nulls currentProcess, the
loop removes the head entry with shift, in the try branch on resolution
and in the catch branch on rejection alike, and jumps back to the while
test. -/
def resumeDrain (st : QState) (ok : Bool) : QState × List TraceEv :=
  let res := loopJump
    { st with currentProcess := false, awaiting := false,
              queue := st.queue.drop 1 }
  (res.1, TraceEv.finish ok :: res.2)

/-- Delivery of the close event of the pending external process.  When
no speak promise is pending the event is a no-op (the source promise
has already settled). -/
def closeEv (st : QState) (code : Option Int) : QState × List TraceEv :=
  if st.awaiting then
    resumeDrain st (match speakSettle code with
      | Except.ok _ => true
      | Except.error _ => false)
  else (st, [])

/-- Delivery of the error event of the pending spawn (launch failure):
the promise rejects and the drain loop resumes through its catch. -/
def errorEv (st : QState) : QState × List TraceEv :=
  if st.awaiting then resumeDrain st false else (st, [])

/-- External events driving one MessageQueue instance: the public
method calls and the settlement signals of the pending process. -/
inductive Event where
  | enqueue (message : List Char)
  | cancel (messageId : Nat)
  | reset
  | close (code : Option Int)
  | procError
deriving DecidableEq, Repr

/-- One atomic transition of the machine. -/
def step (st : QState) : Event → QState × List TraceEv
  | Event.enqueue m => ((enqueue st m).2.1, (enqueue st m).2.2)
  | Event.cancel i => ((cancel st i).1, [])
  | Event.reset => (reset st, [])
  | Event.close c => closeEv st c
  | Event.procError => errorEv st

/-- Run of the machine over a list of events, accumulating the executor
trace. -/
def run (st : QState) : List Event → QState × List TraceEv
  | [] => (st, [])
  | e :: es =>
    let r1 := step st e
    let r2 := run r1.1 es
    (r2.1, r1.2 ++ r2.2)

/-- Number of executor start invocations in a trace. -/
def startCount (tr : List TraceEv) : Nat :=
  tr.countP (fun e => match e with | TraceEv.start _ => true | _ => false)

/-- Number of settled executor invocations in a trace. -/
def finishCount (tr : List TraceEv) : Nat :=
  tr.countP (fun e => match e with | TraceEv.finish _ => true | _ => false)

/-- Bracket automaton over traces: a start is legal only with no
invocation outstanding, a finish only with one outstanding; returns the
final outstanding flag, or none on a violation. -/
def traceRun (a : Bool) : List TraceEv → Option Bool
  | [] => some a
  | TraceEv.start _ :: tr => if a then none else traceRun true tr
  | TraceEv.finish _ :: tr => if a then traceRun false tr else none

/-- Argument vectors of the executor start invocations of a trace, in
order. -/
def spawnArgsOf (tr : List TraceEv) : List (List (List Char)) :=
  tr.filterMap (fun e => match e with
    | TraceEv.start a => some a
    | _ => none)

/-- Expected executor argument vectors of the enqueue events of an
event list, in order: one spawn per enqueued entry, carrying the stored
(truncated) text. -/
def enqueueArgs (maxLen : Nat) (evs : List Event) : List (List (List Char)) :=
  evs.filterMap (fun e => match e with
    | Event.enqueue m => some (speakSpawnArgs (truncateMessage maxLen m))
    | _ => none)

/-- True for events other than cancellation and reset. -/
def isDataEvent : Event → Bool
  | Event.cancel _ => false
  | Event.reset => false
  | _ => true

/-- Argument vectors of the entries currently in the queue. -/
def qArgs (st : QState) : List (List (List Char)) :=
  st.queue.map (fun m => speakSpawnArgs m.message)

/-- Control-state invariant of the machine: isProcessing is set exactly
while the drain loop is suspended on a pending speak promise. -/
def Inv (st : QState) : Prop :=
  st.isProcessing = st.awaiting

/-- FIFO invariant relating a state to the spawns already emitted and
the enqueues already received: while the loop is suspended, the head of
the queue is the entry whose spawn was emitted last and the entries
behind it are exactly the not yet spawned ones; while idle, every
received entry has been spawned and the queue is empty. -/
def FifoInv (st : QState) (spawned enq : List (List (List Char))) : Prop :=
  if st.awaiting then
    ∃ d h t, qArgs st = h :: t ∧ spawned = d ++ [h] ∧ d ++ qArgs st = enq
  else spawned = enq ∧ st.queue = []

end MessageQueue

namespace Dispatcher

/-- Tool-level events of the server in src/index.ts: the speak tool
with its raw message argument (none models a missing argument),
cancel_message, reset_queue, and the settlement signals of the pending
external process. -/
inductive ToolEvent where
  | speak (message : Option (List Char))
  | cancelMessage (messageId : Nat)
  | resetQueue
  | close (code : Option Int)
  | procError
deriving DecidableEq, Repr

/-- The speak case of the CallToolRequestSchema handler in
src/index.ts: a missing message and the empty string are both falsy, so
the handler throws, the surrounding catch turns the throw into a
structured failure response (the returned Bool is the success flag of
the response), and the queue is untouched; otherwise the message is
enqueued. -/
def handleSpeak (st : MessageQueue.QState) (message : Option (List Char)) :
    MessageQueue.QState × List MessageQueue.TraceEv × Bool :=
  match message with
  | none => (st, [], false)
  | some [] => (st, [], false)
  | some m =>
    let r := MessageQueue.enqueue st m
    (r.2.1, r.2.2, true)

/-- One tool call or process signal dispatched to the shared queue. -/
def toolStep (st : MessageQueue.QState) : ToolEvent → MessageQueue.QState × List MessageQueue.TraceEv
  | ToolEvent.speak m => ((handleSpeak st m).1, (handleSpeak st m).2.1)
  | ToolEvent.cancelMessage i => ((MessageQueue.cancel st i).1, [])
  | ToolEvent.resetQueue => (MessageQueue.reset st, [])
  | ToolEvent.close c => MessageQueue.closeEv st c
  | ToolEvent.procError => MessageQueue.errorEv st

/-- Run of the server loop over a list of tool events. -/
def toolRun (st : MessageQueue.QState) : List ToolEvent → MessageQueue.QState × List MessageQueue.TraceEv
  | [] => (st, [])
  | e :: es =>
    let r1 := toolStep st e
    let r2 := toolRun r1.1 es
    (r2.1, r1.2 ++ r2.2)

end Dispatcher

namespace MessageQueueV

/-- Modelled from the spec: the voice-enabled QueuedMessage of the
MessageQueue revision whose source file is not under src (only its unit
tests and its caller, the multi-session index.ts, are present).  Per
section 3 of the spec, the entry carries an optional voice, absence
meaning the default voice of the executor. -/
structure QueuedMessage where
  id : Nat
  message : List Char
  voice : Option (List Char)
  timestamp : Nat
deriving DecidableEq, Repr

/-- Modelled from the spec: the argument vector of the executor start
invocation, equivalent to say -v voice text when a voice is present and
say text with the voice flag omitted when absent (spec section 4.1). -/
def sayArgs (message : List Char) (voice : Option (List Char)) : List (List Char) :=
  match voice with
  | some v => [['-', 'v'], v, message]
  | none => [message]

/-- Modelled from the spec: the entry built by the voice-enabled
enqueue(text, voice?): the text is truncated exactly as in the present
MessageQueue source and the optional voice is stored on the entry
unchanged (spec section 4.2). -/
def enqueueEntry (maxLen : Nat) (nextId : Nat) (message : List Char)
    (voice : Option (List Char)) : QueuedMessage :=
  { id := nextId,
    message := MessageQueue.truncateMessage maxLen message,
    voice := voice,
    timestamp := nextId }

end MessageQueueV

namespace TalkbackServer

/-- AVAILABLE_VOICES from the multi-session index.ts revision. -/
def AVAILABLE_VOICES : List String :=
  ["Alex", "Daniel", "Fred", "Karen", "Moira",
   "Samantha", "Victoria", "Fiona", "Tessa", "Veena"]

/-- Session record of the multi-session index.ts revision. -/
structure Session where
  id : String
  name : String
  voice : String
deriving DecidableEq, Repr

/-- Module-level mutable state of that revision: the sessions Map and
the shared round-robin cursor voiceIndex. -/
structure ServerState where
  sessions : List (String × Session)
  voiceIndex : Nat
deriving DecidableEq, Repr

/-- getNextVoice: read the pool at voiceIndex modulo the pool size,
then advance the cursor. -/
def getNextVoice (st : ServerState) : String × ServerState :=
  (AVAILABLE_VOICES.getD (st.voiceIndex % AVAILABLE_VOICES.length) "",
   { st with voiceIndex := st.voiceIndex + 1 })

/-- getOrCreateSession: return the stored session when the id is known;
otherwise build a session from the supplied random display name (the
randomName argument models the value produced by getRandomName) and the
next round-robin voice, store it, and return it. -/
def getOrCreateSession (st : ServerState) (sessionId : String) (randomName : String) :
    Session × ServerState :=
  match lookupAssoc st.sessions sessionId with
  | some s => (s, st)
  | none =>
    let r := getNextVoice st
    let s : Session := { id := sessionId, name := randomName, voice := r.1 }
    (s, { r.2 with sessions := setAssoc r.2.sessions sessionId s })

/-- Sequence of getOrCreateSession calls, pairing each session id with
the random name drawn for it; returns the resulting sessions in call
order. -/
def createAll (st : ServerState) : List (String × String) → List Session × ServerState
  | [] => ([], st)
  | (sid, nm) :: rest =>
    let r1 := getOrCreateSession st sid nm
    let r2 := createAll r1.2 rest
    (r1.1 :: r2.1, r2.2)

end TalkbackServer

namespace SessionStorage

/-- Session record from src/sessionStorage.ts. -/
structure Session where
  id : String
  name : String
  voice : String
  enabled : Bool
deriving DecidableEq, Repr

/-- Contents of the storage file, post filesystem and JSON layer: none
models a missing file (existsSync false), some none a file that exists
but whose contents JSON.parse rejects, some (some arr) a file parsing
to the given session array. -/
abbrev FileContents := Option (Option (List Session))

/-- load from src/sessionStorage.ts: a missing file leaves the sessions
map empty; a parse exception is caught and the map reset to empty, with
no error propagated (the function stays total); a parsing file is
turned into a map keyed by each session id, in array order. -/
def load (file : FileContents) : List (String × Session) :=
  match file with
  | none => []
  | some none => []
  | some (some arr) => arr.map (fun s => (s.id, s))

/-- State of one SessionStorage instance: the storage file it owns and
the in-memory sessions map. -/
structure State where
  file : FileContents
  sessions : List (String × Session)
deriving DecidableEq, Repr

/-- Constructor of SessionStorage: the sessions map is loaded eagerly
from the storage file. -/
def mk (file : FileContents) : State :=
  { file := file, sessions := load file }

/-- save from src/sessionStorage.ts: serialize the map values to the
file.  writeOk models whether writeFileSync succeeds; on failure the
exception is caught and logged, nothing is written and nothing is
thrown (the function stays total and the state is returned unchanged). -/
def save (writeOk : Bool) (st : State) : State :=
  if writeOk then { st with file := some (some (st.sessions.map Prod.snd)) } else st

/-- get from src/sessionStorage.ts. -/
def get (st : State) (sessionId : String) : Option Session :=
  lookupAssoc st.sessions sessionId

/-- has from src/sessionStorage.ts. -/
def has (st : State) (sessionId : String) : Bool :=
  (get st sessionId).isSome

/-- set from src/sessionStorage.ts: update the map, then save. -/
def set (writeOk : Bool) (st : State) (sessionId : String) (s : Session) : State :=
  save writeOk { st with sessions := setAssoc st.sessions sessionId s }

/-- getAll from src/sessionStorage.ts returns the sessions map (the
reference-level behaviour is modelled separately in SessionStorageRef). -/
def getAll (st : State) : List (String × Session) :=
  st.sessions

/-- Well-formedness of a storage state: every binding maps a key to a
session whose id field equals that key.  Every state built by the
public interface satisfies this, since set is only called with the
session id as key. -/
def WF (st : State) : Prop :=
  ∀ p ∈ st.sessions, p.2.id = p.1

end SessionStorage

namespace Registry

/-- Modelled from the spec: the session registry of section 4.3, the
index.ts revision that wires SessionStorage into getOrCreateSession and
which is not under src (only the storage itself and an in-memory
caller are).  It owns a SessionStorage and the shared round-robin
cursor. -/
structure State where
  storage : SessionStorage.State
  voiceIndex : Nat
deriving DecidableEq, Repr

/-- Modelled from the spec: construction of a registry over the durable
store: the storage loads the file eagerly; base is the initial cursor. -/
def mk (file : SessionStorage.FileContents) (base : Nat) : State :=
  { storage := SessionStorage.mk file, voiceIndex := base }

/-- Modelled from the spec: getOrCreate(sessionId) of section 4.3: a
known id resolves to the stored session unchanged; an unseen id is
assigned the supplied random display name and the next round-robin
voice, enabled false, and the record is persisted through the storage. -/
def getOrCreate (r : State) (sessionId : String) (randomName : String) :
    SessionStorage.Session × State :=
  match SessionStorage.get r.storage sessionId with
  | some s => (s, r)
  | none =>
    let v := TalkbackServer.AVAILABLE_VOICES.getD
      (r.voiceIndex % TalkbackServer.AVAILABLE_VOICES.length) ""
    let s : SessionStorage.Session :=
      { id := sessionId, name := randomName, voice := v, enabled := false }
    (s, { storage := SessionStorage.set true r.storage sessionId s,
          voiceIndex := r.voiceIndex + 1 })

end Registry

namespace SessionStorageRef

/-- Heap references to Map objects. -/
abbrev Ref := Nat

/-- Heap of JavaScript Map objects: each reference names a mutable
association list. -/
def Heap : Type := Ref → List (String × SessionStorage.Session)

/-- Read the Map object behind a reference. -/
def Heap.readMap (h : Heap) (r : Ref) : List (String × SessionStorage.Session) := h r

/-- Overwrite the Map object behind a reference. -/
def Heap.writeMap (h : Heap) (r : Ref) (m : List (String × SessionStorage.Session)) : Heap :=
  fun q => if q = r then m else h q

/-- Reference-level state of a SessionStorage instance: the this
dot sessions field holds a reference into the heap, and the instance
owns its storage file. -/
structure State where
  sessionsRef : Ref
  file : SessionStorage.FileContents

/-- get from src/sessionStorage.ts, reading through the field
reference. -/
def get (h : Heap) (st : State) (sessionId : String) : Option SessionStorage.Session :=
  lookupAssoc (h.readMap st.sessionsRef) sessionId

/-- has from src/sessionStorage.ts. -/
def has (h : Heap) (st : State) (sessionId : String) : Bool :=
  (get h st sessionId).isSome

/-- getAll from src/sessionStorage.ts: return this dot sessions, that
is, the reference to the live internal Map, not a copy. -/
def getAll (st : State) : Ref :=
  st.sessionsRef

/-- Map.prototype.set invoked on an arbitrary Map object of the heap:
a pure heap operation, no SessionStorage code runs. -/
def mapSet (h : Heap) (r : Ref) (sessionId : String) (s : SessionStorage.Session) : Heap :=
  h.writeMap r (setAssoc (h.readMap r) sessionId s)

/-- A caller mutating the Map returned by getAll: getAll is read and
Map.prototype.set applied to the returned reference.  Only the heap
changes; the instance state, its file included, is untouched because
save is never invoked. -/
def externalMutation (h : Heap) (st : State) (sessionId : String)
    (s : SessionStorage.Session) : Heap × State :=
  (mapSet h (getAll st) sessionId s, st)

/-- set from src/sessionStorage.ts at reference level: update the Map
behind the field reference, then save, which rewrites the file from the
map values. -/
def set (h : Heap) (st : State) (sessionId : String) (s : SessionStorage.Session) :
    Heap × State :=
  let h1 := h.writeMap st.sessionsRef (setAssoc (h.readMap st.sessionsRef) sessionId s)
  (h1, { st with file := some (some ((h1.readMap st.sessionsRef).map Prod.snd)) })

end SessionStorageRef

/-! Helper lemmas. -/

/-- Lookup after an association update: the updated key now maps to the
new value and every other key is unaffected. -/
theorem lookupAssoc_setAssoc {α : Type} (l : List (String × α)) (k : String) (v : α)
    (key : String) :
    lookupAssoc (setAssoc l k v) key = if k = key then some v else lookupAssoc l key := by
  induction l with
  | nil =>
    by_cases h : k = key <;> simp [setAssoc, lookupAssoc, h]
  | cons p rest ih =>
    obtain ⟨k1, w⟩ := p
    by_cases h1 : k1 = k
    · subst h1
      by_cases h2 : k1 = key <;> simp [setAssoc, lookupAssoc, h2]
    · by_cases h2 : k1 = key
      · subst h2
        have : ¬ k = k1 := fun h => h1 h.symm
        simp [setAssoc, lookupAssoc, h1, this]
      · simp [setAssoc, lookupAssoc, h1, h2, ih]

/-! Claim theorems. -/

/-- C3 counterexample: with a configured max of 2 and the input abcd
(length 4 greater than max), the stored text is the bare ellipsis of
length 3, which exceeds the configured max, refuting the claim that the
stored length is at most max for every configured max. -/
theorem claim_C3_counterexample :
    MessageQueue.truncateMessage 2 ['a', 'b', 'c', 'd'] = MessageQueue.ellipsis
    ∧ (MessageQueue.truncateMessage 2 ['a', 'b', 'c', 'd']).length = 3
    ∧ ¬ ((MessageQueue.truncateMessage 2 ['a', 'b', 'c', 'd']).length ≤ 2) := by
  decide

/-- C3 as amended: the constructor default is 500; enqueue stores
exactly the truncation of its input; and for every configured max of at
least 3 and every input text, an input of length at most max is stored
unchanged, a longer input is stored as its first max minus 3 characters
followed by the ellipsis, of length exactly max, and in all cases the
stored length is at most max. -/
theorem claim_C3_truncation :
    MessageQueue.defaultMaxMessageLength = 500
    ∧ (∀ (st : MessageQueue.QState) (msg : List Char),
        (MessageQueue.enqueue st msg).1.message
          = MessageQueue.truncateMessage st.maxMessageLength msg)
    ∧ ∀ (maxLen : Nat) (message : List Char), 3 ≤ maxLen →
        ((message.length ≤ maxLen → MessageQueue.truncateMessage maxLen message = message)
        ∧ (maxLen < message.length →
            MessageQueue.truncateMessage maxLen message
              = message.take (maxLen - 3) ++ MessageQueue.ellipsis
            ∧ (MessageQueue.truncateMessage maxLen message).length = maxLen)
        ∧ (MessageQueue.truncateMessage maxLen message).length ≤ maxLen) := by
  refine ⟨rfl, ?_, ?_⟩
  · intro st msg
    by_cases h : st.isProcessing <;> simp [MessageQueue.enqueue, h]
  · intro maxLen message h3
    by_cases hle : message.length ≤ maxLen
    · exact ⟨fun _ => by simp [MessageQueue.truncateMessage, hle],
        fun hlt => absurd hle (by omega),
        by simp [MessageQueue.truncateMessage, hle]⟩
    · have hlen : (MessageQueue.truncateMessage maxLen message).length = maxLen := by
        simp only [MessageQueue.truncateMessage, if_neg hle, List.length_append,
          List.length_take, MessageQueue.ellipsis, List.length_cons, List.length_nil]
        omega
      exact ⟨fun h => absurd h hle,
        fun _ => ⟨by simp [MessageQueue.truncateMessage, hle], hlen⟩,
        le_of_eq hlen⟩

/-- C3 witness: the amended statement applied at max 5 and the
eight-character input abcdefgh yields a stored length of exactly 5. -/
theorem claim_C3_truncation_witness :
    (MessageQueue.truncateMessage 5 ['a', 'b', 'c', 'd', 'e', 'f', 'g', 'h']).length = 5 :=
  ((claim_C3_truncation.2.2 5 ['a', 'b', 'c', 'd', 'e', 'f', 'g', 'h']
    (by decide)).2.1 (by decide)).2

/-- C4 evaluated at the failing input: enqueue a then b, so that a is
dispatched to the executor and is being spoken while still sitting at
the head of the queue array; cancel with the id of a then returns true,
although the claim requires false for a currently spoken entry, and
after the killed-free normal close of a the drain loop shifts b off the
queue, so b is never spoken: the run spawns only a, yet ends with an
empty queue and an idle loop. -/
theorem claim_C4_cancel_inflight :
    ((MessageQueue.run (MessageQueue.initState 500)
        [MessageQueue.Event.enqueue ['a'], MessageQueue.Event.enqueue ['b']]).1.awaiting = true)
    ∧ ((MessageQueue.run (MessageQueue.initState 500)
        [MessageQueue.Event.enqueue ['a'], MessageQueue.Event.enqueue ['b']]).1.isProcessing = true)
    ∧ ((MessageQueue.run (MessageQueue.initState 500)
        [MessageQueue.Event.enqueue ['a'], MessageQueue.Event.enqueue ['b']]).1.queue.map
          (fun m => m.id) = [0, 1])
    ∧ ((MessageQueue.cancel (MessageQueue.run (MessageQueue.initState 500)
        [MessageQueue.Event.enqueue ['a'], MessageQueue.Event.enqueue ['b']]).1 0).2 = true)
    ∧ (MessageQueue.spawnArgsOf (MessageQueue.run (MessageQueue.initState 500)
        [MessageQueue.Event.enqueue ['a'], MessageQueue.Event.enqueue ['b'],
         MessageQueue.Event.cancel 0, MessageQueue.Event.close (some 0)]).2 = [[['a']]])
    ∧ ((MessageQueue.run (MessageQueue.initState 500)
        [MessageQueue.Event.enqueue ['a'], MessageQueue.Event.enqueue ['b'],
         MessageQueue.Event.cancel 0, MessageQueue.Event.close (some 0)]).1.queue = [])
    ∧ ((MessageQueue.run (MessageQueue.initState 500)
        [MessageQueue.Event.enqueue ['a'], MessageQueue.Event.enqueue ['b'],
         MessageQueue.Event.cancel 0, MessageQueue.Event.close (some 0)]).1.isProcessing
        = false) := by
  decide

/-- C6: constructing the storage over a missing file yields an empty
session map; over a file that exists but fails to parse it also yields
an empty session map, the caught exception propagating nowhere (both
constructions are ordinary total evaluations); and a save whose write
fails returns normally with the state unchanged, throwing nothing. -/
theorem claim_C6_fail_open :
    (SessionStorage.mk none).sessions = []
    ∧ (SessionStorage.mk (some none)).sessions = []
    ∧ ∀ st : SessionStorage.State, SessionStorage.save false st = st :=
  ⟨rfl, rfl, fun _ => rfl⟩

/-- C7 counterexample: a normal process exit with code 1 settles the
speak promise as a rejection, refuting the claim that the promise
resolves on normal exit with any exit code. -/
theorem claim_C7_counterexample :
    MessageQueue.speakSettle (some 1) ≠ Except.ok () := by
  simp [MessageQueue.speakSettle]

/-- C7 as amended: the speak promise resolves exactly on exit code 0
and rejects on every other close (non-zero code or null code after a
forceful termination) as well as on launch failure; a non-zero exit is
nevertheless a soft failure: in the run enqueuing a then b where a
closes with code 1, the executor is nonetheless invoked next with b,
the queue having advanced past the failed entry. -/
theorem claim_C7_settlement :
    (∀ code : Option Int,
        MessageQueue.speakSettle code = Except.ok () ↔ code = some 0)
    ∧ (MessageQueue.spawnArgsOf (MessageQueue.run (MessageQueue.initState 500)
        [MessageQueue.Event.enqueue ['a'], MessageQueue.Event.enqueue ['b'],
         MessageQueue.Event.close (some 1)]).2 = [[['a']], [['b']]])
    ∧ ((MessageQueue.run (MessageQueue.initState 500)
        [MessageQueue.Event.enqueue ['a'], MessageQueue.Event.enqueue ['b'],
         MessageQueue.Event.close (some 1)]).1.queue.map (fun m => m.message) = [['b']]) := by
  refine ⟨?_, by decide, by decide⟩
  intro code
  by_cases hc : code = some 0 <;> simp [MessageQueue.speakSettle, hc]

/-- C8 (voice-enabled queue modelled from the spec): the entry stores
the optional voice passed to enqueue unchanged, and the executor is
started with arguments equivalent to say -v voice text when the entry
has a voice and say text with the voice flag omitted when it has none. -/
theorem claim_C8_voice_args :
    (∀ (maxLen n : Nat) (m : List Char) (v : Option (List Char)),
        (MessageQueueV.enqueueEntry maxLen n m v).voice = v)
    ∧ (∀ (maxLen n : Nat) (m : List Char) (v : List Char),
        MessageQueueV.sayArgs (MessageQueueV.enqueueEntry maxLen n m (some v)).message
            (MessageQueueV.enqueueEntry maxLen n m (some v)).voice
          = [['-', 'v'], v, MessageQueue.truncateMessage maxLen m])
    ∧ (∀ (maxLen n : Nat) (m : List Char),
        MessageQueueV.sayArgs (MessageQueueV.enqueueEntry maxLen n m none).message
            (MessageQueueV.enqueueEntry maxLen n m none).voice
          = [MessageQueue.truncateMessage maxLen m]) :=
  ⟨fun _ _ _ _ => rfl, fun _ _ _ _ => rfl, fun _ _ _ => rfl⟩

/-- C9 counterexample: MessageQueue.enqueue itself performs no
validation: called directly with the empty string it stores an entry
whose text is empty, and that entry is present in the queue, refuting
the claim that enqueue validates non-emptiness and that no entry ever
present in the queue has empty stored text. -/
theorem claim_C9_counterexample :
    (MessageQueue.enqueue (MessageQueue.initState 500) []).1.message = []
    ∧ (MessageQueue.enqueue (MessageQueue.initState 500) []).2.1.queue.map
        (fun m => m.message) = [[]] := by
  decide

/-- C10: getAll returns the reference to the live internal Map itself,
not a copy; a mutation performed through the returned reference leaves
the instance state, its persisted file included, untouched, while being
visible to subsequent get, has and getAll reads of the same instance;
the store file is rewritten only by set, which serializes the updated
map. -/
theorem claim_C10_getAll_alias :
    ∀ (h : SessionStorageRef.Heap) (st : SessionStorageRef.State)
      (k : String) (s : SessionStorage.Session),
      SessionStorageRef.getAll st = st.sessionsRef
      ∧ (SessionStorageRef.externalMutation h st k s).2 = st
      ∧ SessionStorageRef.get (SessionStorageRef.externalMutation h st k s).1 st k = some s
      ∧ SessionStorageRef.has (SessionStorageRef.externalMutation h st k s).1 st k = true
      ∧ SessionStorageRef.Heap.readMap (SessionStorageRef.externalMutation h st k s).1
          (SessionStorageRef.getAll st)
        = setAssoc (SessionStorageRef.Heap.readMap h st.sessionsRef) k s
      ∧ (SessionStorageRef.set h st k s).2.file
        = some (some ((setAssoc (SessionStorageRef.Heap.readMap h st.sessionsRef) k s).map
            Prod.snd)) := by
  intro h st k s
  have hread : SessionStorageRef.Heap.readMap (SessionStorageRef.externalMutation h st k s).1
      st.sessionsRef = setAssoc (SessionStorageRef.Heap.readMap h st.sessionsRef) k s := by
    simp [SessionStorageRef.externalMutation, SessionStorageRef.mapSet,
      SessionStorageRef.getAll, SessionStorageRef.Heap.readMap, SessionStorageRef.Heap.writeMap]
  refine ⟨rfl, rfl, ?_, ?_, hread, ?_⟩
  · simp [SessionStorageRef.get, hread, lookupAssoc_setAssoc]
  · simp [SessionStorageRef.has, SessionStorageRef.get, hread, lookupAssoc_setAssoc]
  · simp [SessionStorageRef.set, SessionStorageRef.Heap.readMap, SessionStorageRef.Heap.writeMap]

/-- With the loop owning the turn (isProcessing set) and no process
pending, a loop iteration restores the control invariant. -/
theorem MessageQueue.loopJump_inv (st : QState) (hp : st.isProcessing = true)
    (ha : st.awaiting = false) : Inv (loopJump st).1 := by
  cases hq : st.queue with
  | nil => simp [loopJump, hq, Inv, ha]
  | cons m l => simp [loopJump, hq, Inv, hp]

/-- Resuming the drain loop preserves the control invariant. -/
theorem MessageQueue.resumeDrain_inv (st : QState) (ok : Bool) (hp : st.isProcessing = true) :
    Inv (resumeDrain st ok).1 := by
  have h := loopJump_inv
    { st with currentProcess := false, awaiting := false, queue := st.queue.drop 1 }
    (by simpa using hp) rfl
  simpa [resumeDrain] using h

/-- Every transition preserves the control invariant. -/
theorem MessageQueue.step_preserves_inv (st : QState) (e : Event) (h : Inv st) :
    Inv (step st e).1 := by
  cases e with
  | enqueue m =>
    by_cases hp : st.isProcessing
    · simpa [step, enqueue, hp, Inv] using h
    · have hp0 : st.isProcessing = false := by simpa using hp
      have ha0 : st.awaiting = false := h.symm.trans hp0
      simp only [step, enqueue, hp0, Bool.false_eq_true, if_false]
      exact loopJump_inv _ rfl ha0
  | cancel i =>
    simp only [step, cancel]
    split <;> simpa [Inv] using h
  | reset =>
    by_cases hc : st.currentProcess <;>
      simpa [step, reset, stopCurrentPlayback, hc, Inv] using h
  | close c =>
    by_cases ha : st.awaiting
    · have hp : st.isProcessing = true := h.trans (by simpa using ha)
      simp only [step, closeEv, ha, if_true]
      exact resumeDrain_inv st _ hp
    · have ha0 : st.awaiting = false := by simpa using ha
      simpa [step, closeEv, ha0] using h
  | procError =>
    by_cases ha : st.awaiting
    · have hp : st.isProcessing = true := h.trans (by simpa using ha)
      simp only [step, errorEv, ha, if_true]
      exact resumeDrain_inv st _ hp
    · have ha0 : st.awaiting = false := by simpa using ha
      simpa [step, errorEv, ha0] using h

/-- The bracket automaton composes over trace concatenation. -/
theorem MessageQueue.traceRun_append (a : Bool) (t1 t2 : List TraceEv) :
    traceRun a (t1 ++ t2)
      = match traceRun a t1 with
        | some b => traceRun b t2
        | none => none := by
  induction t1 generalizing a with
  | nil => simp [traceRun]
  | cons x t ih =>
    cases x with
    | start args => cases a <;> simp [traceRun, ih]
    | finish ok => cases a <;> simp [traceRun, ih]

/-- With no process pending, the trace of a loop iteration is accepted
by the bracket automaton and ends in the resulting pending flag. -/
theorem MessageQueue.loopJump_traceRun (st : QState) (ha : st.awaiting = false) :
    traceRun false (loopJump st).2 = some (loopJump st).1.awaiting := by
  cases hq : st.queue with
  | nil => simp [loopJump, hq, traceRun, ha]
  | cons m l => simp [loopJump, hq, traceRun]

/-- The trace of a drain-loop resumption is accepted by the bracket
automaton starting from one pending invocation. -/
theorem MessageQueue.resumeDrain_traceRun (st : QState) (ok : Bool) :
    traceRun true (resumeDrain st ok).2 = some (resumeDrain st ok).1.awaiting := by
  have h := loopJump_traceRun
    { st with currentProcess := false, awaiting := false, queue := st.queue.drop 1 } rfl
  simpa [resumeDrain, traceRun] using h

/-- The trace of every transition is accepted by the bracket automaton,
from the pending flag before to the pending flag after. -/
theorem MessageQueue.step_traceRun (st : QState) (e : Event) (h : Inv st) :
    traceRun st.awaiting (step st e).2 = some (step st e).1.awaiting := by
  cases e with
  | enqueue m =>
    by_cases hp : st.isProcessing
    · simp [step, enqueue, hp, traceRun]
    · have hp0 : st.isProcessing = false := by simpa using hp
      have ha0 : st.awaiting = false := h.symm.trans hp0
      simp only [step, enqueue, hp0, Bool.false_eq_true, if_false]
      rw [ha0]
      exact loopJump_traceRun _ rfl
  | cancel i =>
    simp only [step, cancel]
    split <;> simp [traceRun]
  | reset =>
    by_cases hc : st.currentProcess <;>
      simp [step, reset, stopCurrentPlayback, hc, traceRun]
  | close c =>
    by_cases ha : st.awaiting
    · have ha1 : st.awaiting = true := by simpa using ha
      simp only [step, closeEv, ha1, if_true]
      exact resumeDrain_traceRun st _
    · have ha0 : st.awaiting = false := by simpa using ha
      simp [step, closeEv, ha0, traceRun]
  | procError =>
    by_cases ha : st.awaiting
    · have ha1 : st.awaiting = true := by simpa using ha
      simp only [step, errorEv, ha1, if_true]
      exact resumeDrain_traceRun st _
    · have ha0 : st.awaiting = false := by simpa using ha
      simp [step, errorEv, ha0, traceRun]

/-- The trace of a whole run is accepted by the bracket automaton, and
the control invariant holds in the final state. -/
theorem MessageQueue.run_traceRun (st : QState) (evs : List Event) (h : Inv st) :
    Inv (run st evs).1
    ∧ traceRun st.awaiting (run st evs).2 = some (run st evs).1.awaiting := by
  induction evs generalizing st with
  | nil => exact ⟨h, rfl⟩
  | cons e es ih =>
    have h1 := step_preserves_inv st e h
    have ht1 := step_traceRun st e h
    have ih2 := ih (step st e).1 h1
    refine ⟨by simpa [run] using ih2.1, ?_⟩
    simp only [run]
    rw [traceRun_append, ht1]
    simpa using ih2.2

/-- A trace accepted by the bracket automaton has, in every prefix, at
most one start beyond the finishes, counting one more when a process
was already pending at the beginning. -/
theorem MessageQueue.traceRun_count (tr : List TraceEv) :
    ∀ a b : Bool, traceRun a tr = some b → ∀ n : Nat,
      startCount (tr.take n) + (cond a 1 0)
        ≤ finishCount (tr.take n) + 1 := by
  induction tr with
  | nil =>
    intro a b h n
    cases a <;> simp [startCount, finishCount]
  | cons x t ih =>
    intro a b h n
    cases x with
    | start args =>
      cases a with
      | false =>
        simp only [traceRun, Bool.false_eq_true, if_false] at h
        cases n with
        | zero => simp [startCount, finishCount]
        | succ n =>
          have hc := ih true b h n
          simp only [startCount, finishCount, List.take_succ_cons, List.countP_cons] at hc ⊢
          simp at hc ⊢
          omega
      | true => simp [traceRun] at h
    | finish ok =>
      cases a with
      | true =>
        simp only [traceRun, if_true] at h
        cases n with
        | zero => simp [startCount, finishCount]
        | succ n =>
          have hc := ih false b h n
          simp only [startCount, finishCount, List.take_succ_cons, List.countP_cons] at hc ⊢
          simp at hc ⊢
          omega
      | false => simp [traceRun] at h

/-- C1: single flight: over every interleaving of enqueue, cancel and
reset calls and process settlement signals, every prefix of the
executor trace contains at most one start invocation beyond the settled
ones, so no two executor start invocations are ever outstanding
concurrently and at most one queued message is being spoken at any
instant. -/
theorem claim_C1_single_flight (maxLen : Nat) (evs : List MessageQueue.Event) (n : Nat) :
    MessageQueue.startCount (((MessageQueue.run (MessageQueue.initState maxLen) evs).2).take n)
      ≤ MessageQueue.finishCount (((MessageQueue.run (MessageQueue.initState maxLen) evs).2).take n)
        + 1 := by
  have h := MessageQueue.run_traceRun (MessageQueue.initState maxLen) evs rfl
  have hc := MessageQueue.traceRun_count _ false _ h.2 n
  simpa using hc

/-- A loop iteration does not change the configured maximum length. -/
theorem MessageQueue.loopJump_maxLen (st : QState) :
    (loopJump st).1.maxMessageLength = st.maxMessageLength := by
  cases hq : st.queue <;> simp [loopJump, hq]

/-- No transition changes the configured maximum length. -/
theorem MessageQueue.step_maxLen (st : QState) (e : Event) :
    (step st e).1.maxMessageLength = st.maxMessageLength := by
  cases e with
  | enqueue m =>
    by_cases hp : st.isProcessing
    · simp [step, enqueue, hp]
    · have hp0 : st.isProcessing = false := by simpa using hp
      simp only [step, enqueue, hp0, Bool.false_eq_true, if_false]
      rw [loopJump_maxLen]
  | cancel i =>
    simp only [step, cancel]
    split <;> simp
  | reset =>
    by_cases hc : st.currentProcess <;> simp [step, reset, stopCurrentPlayback, hc]
  | close c =>
    by_cases ha : st.awaiting
    · have ha1 : st.awaiting = true := by simpa using ha
      simp only [step, closeEv, ha1, if_true, resumeDrain]
      rw [loopJump_maxLen]
    · have ha0 : st.awaiting = false := by simpa using ha
      simp [step, closeEv, ha0]
  | procError =>
    by_cases ha : st.awaiting
    · have ha1 : st.awaiting = true := by simpa using ha
      simp only [step, errorEv, ha1, if_true, resumeDrain]
      rw [loopJump_maxLen]
    · have ha0 : st.awaiting = false := by simpa using ha
      simp [step, errorEv, ha0]

/-- Spawn extraction distributes over trace concatenation. -/
theorem MessageQueue.spawnArgsOf_append (t1 t2 : List TraceEv) :
    spawnArgsOf (t1 ++ t2) = spawnArgsOf t1 ++ spawnArgsOf t2 := by
  simp [spawnArgsOf]

/-- Expected executor arguments decompose over the first event. -/
theorem MessageQueue.enqueueArgs_cons (maxLen : Nat) (e : Event) (es : List Event) :
    enqueueArgs maxLen (e :: es) = enqueueArgs maxLen [e] ++ enqueueArgs maxLen es := by
  cases e <;> simp [enqueueArgs]

/-- Resuming the drain loop preserves the FIFO invariant: the settled
head entry is removed and, when further entries wait, the next one is
spawned. -/
theorem MessageQueue.resumeDrain_fifo (st : QState) (ok : Bool)
    (spawned enq : List (List (List Char)))
    (ha : st.awaiting = true) (hF : FifoInv st spawned enq) :
    FifoInv (resumeDrain st ok).1 (spawned ++ spawnArgsOf (resumeDrain st ok).2) enq := by
  simp only [FifoInv, ha, if_true] at hF
  obtain ⟨d, hh, t, hq, hs, he⟩ := hF
  have hqm : st.queue.map (fun m => speakSpawnArgs m.message) = hh :: t := hq
  cases hqueue : st.queue with
  | nil =>
    rw [hqueue] at hqm
    simp at hqm
  | cons q0 qr =>
    rw [hqueue] at hqm
    simp only [List.map_cons, List.cons.injEq] at hqm
    obtain ⟨hq1, hq2⟩ := hqm
    cases hqr : qr with
    | nil =>
      have hdrop : st.queue.drop 1 = [] := by rw [hqueue, hqr]; rfl
      have hqset : qArgs st = [hh] := by
        have : qArgs st = (q0 :: qr).map (fun m => speakSpawnArgs m.message) := by
          rw [qArgs, hqueue]
        rw [this, hqr]
        simp [hq1]
      simp only [resumeDrain, loopJump, hdrop]
      simp only [FifoInv, Bool.false_eq_true, if_false, spawnArgsOf, List.filterMap_cons,
        List.filterMap_nil, List.append_nil]
      refine ⟨?_, by simp⟩
      rw [hs, ← he, hqset]
    | cons q1 qr2 =>
      have hdrop : st.queue.drop 1 = q1 :: qr2 := by rw [hqueue, hqr]; rfl
      have hqset : qArgs st
          = hh :: speakSpawnArgs q1.message :: qr2.map (fun m => speakSpawnArgs m.message) := by
        have h0 : qArgs st = (q0 :: qr).map (fun m => speakSpawnArgs m.message) := by
          rw [qArgs, hqueue]
        rw [h0, hqr]
        simp [hq1]
      simp only [resumeDrain, loopJump, hdrop]
      simp only [FifoInv, if_true, spawnArgsOf, List.filterMap_cons, List.filterMap_nil]
      refine ⟨d ++ [hh], speakSpawnArgs q1.message,
        qr2.map (fun m => speakSpawnArgs m.message), ?_, ?_, ?_⟩
      · simp [qArgs]
      · rw [hs]
      · rw [← he, hqset]
        simp [qArgs]

/-- Every data event (no cancellation, no reset) preserves the FIFO
invariant, extending the received entries by the enqueued one if any. -/
theorem MessageQueue.step_preserves_fifo (st : QState) (e : Event)
    (spawned enq : List (List (List Char)))
    (hdata : isDataEvent e = true) (hI : Inv st) (hF : FifoInv st spawned enq) :
    FifoInv (step st e).1 (spawned ++ spawnArgsOf (step st e).2)
      (enq ++ enqueueArgs st.maxMessageLength [e]) := by
  cases e with
  | cancel i => simp [isDataEvent] at hdata
  | reset => simp [isDataEvent] at hdata
  | enqueue m =>
    by_cases hp : st.isProcessing
    · have hp1 : st.isProcessing = true := by simpa using hp
      have ha : st.awaiting = true := hI.symm.trans hp1
      simp only [step, enqueue, hp1, if_true]
      simp only [FifoInv, ha, if_true] at hF
      obtain ⟨d, hh, t, hq, hs, he⟩ := hF
      have hqm : st.queue.map (fun m => speakSpawnArgs m.message) = hh :: t := hq
      simp only [FifoInv, ha, if_true, enqueueArgs, List.filterMap_cons, List.filterMap_nil,
        spawnArgsOf, List.append_nil]
      refine ⟨d, hh,
        t ++ [speakSpawnArgs (truncateMessage st.maxMessageLength m)], ?_, ?_, ?_⟩
      · simp [qArgs, hqm]
      · exact hs
      · rw [← he]
        simp [qArgs, hqm]
    · have hp0 : st.isProcessing = false := by simpa using hp
      have ha0 : st.awaiting = false := hI.symm.trans hp0
      simp only [FifoInv, ha0, Bool.false_eq_true, if_false] at hF
      obtain ⟨hse, hqnil⟩ := hF
      simp only [step, enqueue, hp0, Bool.false_eq_true, if_false]
      simp only [loopJump, hqnil, List.nil_append]
      simp only [FifoInv, if_true, enqueueArgs, List.filterMap_cons, List.filterMap_nil,
        spawnArgsOf, qArgs]
      refine ⟨spawned, speakSpawnArgs (truncateMessage st.maxMessageLength m), [], ?_, rfl, ?_⟩
      · simp
      · rw [hse]
        simp
  | close c =>
    by_cases ha : st.awaiting
    · have ha1 : st.awaiting = true := by simpa using ha
      have hfifo := resumeDrain_fifo st
        (match speakSettle c with
          | Except.ok _ => true
          | Except.error _ => false) spawned enq ha1 hF
      simp only [step, closeEv, ha1, if_true]
      simpa [enqueueArgs] using hfifo
    · have ha0 : st.awaiting = false := by simpa using ha
      simpa [step, closeEv, ha0, enqueueArgs, spawnArgsOf] using hF
  | procError =>
    by_cases ha : st.awaiting
    · have ha1 : st.awaiting = true := by simpa using ha
      have hfifo := resumeDrain_fifo st false spawned enq ha1 hF
      simp only [step, errorEv, ha1, if_true]
      simpa [enqueueArgs] using hfifo
    · have ha0 : st.awaiting = false := by simpa using ha
      simpa [step, errorEv, ha0, enqueueArgs, spawnArgsOf] using hF

/-- Every run of data events preserves the FIFO invariant. -/
theorem MessageQueue.run_preserves_fifo (evs : List Event) :
    ∀ (st : QState) (spawned enq : List (List (List Char))),
      evs.all isDataEvent = true → Inv st → FifoInv st spawned enq →
      FifoInv (run st evs).1 (spawned ++ spawnArgsOf (run st evs).2)
        (enq ++ enqueueArgs st.maxMessageLength evs) := by
  induction evs with
  | nil =>
    intro st spawned enq _ _ hF
    simpa [run, enqueueArgs, spawnArgsOf] using hF
  | cons e es ih =>
    intro st spawned enq hall hI hF
    simp only [List.all_cons, Bool.and_eq_true] at hall
    have h1 := step_preserves_fifo st e spawned enq hall.1 hI hF
    have hI1 := step_preserves_inv st e hI
    have h2 := ih (step st e).1 (spawned ++ spawnArgsOf (step st e).2)
      (enq ++ enqueueArgs st.maxMessageLength [e]) hall.2 hI1 h1
    rw [step_maxLen] at h2
    simp only [run]
    rw [enqueueArgs_cons]
    simpa [spawnArgsOf_append, List.append_assoc] using h2

/-- C2: FIFO with progress through failures: over any interleaving of
enqueues and process settlements with no cancellation or reset and with
arbitrary exit codes (so including soft failures and launch errors),
the sequence of executor invocations is always a prefix of the sequence
of enqueued entries with their stored texts, in enqueue order; and
whenever the run ends with the drain loop idle every enqueued entry has
been dispatched exactly once, failed predecessors notwithstanding. -/
theorem claim_C2_fifo (maxLen : Nat) (evs : List MessageQueue.Event)
    (hdata : evs.all MessageQueue.isDataEvent = true) :
    (∃ rest, MessageQueue.spawnArgsOf
        (MessageQueue.run (MessageQueue.initState maxLen) evs).2 ++ rest
        = MessageQueue.enqueueArgs maxLen evs)
    ∧ ((MessageQueue.run (MessageQueue.initState maxLen) evs).1.isProcessing = false →
        MessageQueue.spawnArgsOf (MessageQueue.run (MessageQueue.initState maxLen) evs).2
          = MessageQueue.enqueueArgs maxLen evs) := by
  have hF0 : MessageQueue.FifoInv (MessageQueue.initState maxLen) [] [] := by
    simp [MessageQueue.FifoInv, MessageQueue.initState]
  have h := MessageQueue.run_preserves_fifo evs (MessageQueue.initState maxLen) [] [] hdata rfl hF0
  have hI : (MessageQueue.run (MessageQueue.initState maxLen) evs).1.isProcessing
      = (MessageQueue.run (MessageQueue.initState maxLen) evs).1.awaiting :=
    (MessageQueue.run_traceRun (MessageQueue.initState maxLen) evs rfl).1
  simp only [List.nil_append,
    show (MessageQueue.initState maxLen).maxMessageLength = maxLen from rfl] at h
  by_cases ha1 : (MessageQueue.run (MessageQueue.initState maxLen) evs).1.awaiting = true
  · simp only [MessageQueue.FifoInv, ha1, if_true] at h
    obtain ⟨d, hh, t, hq, hs, he⟩ := h
    constructor
    · refine ⟨t, ?_⟩
      rw [hs, ← he, hq]
      simp
    · intro hidle
      rw [hidle, ha1] at hI
      simp at hI
  · have ha0 : (MessageQueue.run (MessageQueue.initState maxLen) evs).1.awaiting = false := by
      simpa using ha1
    simp only [MessageQueue.FifoInv, ha0, Bool.false_eq_true, if_false] at h
    exact ⟨⟨[], by simpa using h.1⟩, fun _ => h.1⟩

/-- C2 witness: the concrete run enqueuing a, seeing it fail with exit
code 1, enqueuing b and seeing it close with code 0 satisfies both
conclusions of the FIFO theorem. -/
theorem claim_C2_fifo_witness :
    (∃ rest, MessageQueue.spawnArgsOf
        (MessageQueue.run (MessageQueue.initState 500)
          [MessageQueue.Event.enqueue ['a'], MessageQueue.Event.close (some 1),
           MessageQueue.Event.enqueue ['b'], MessageQueue.Event.close (some 0)]).2 ++ rest
        = MessageQueue.enqueueArgs 500
            [MessageQueue.Event.enqueue ['a'], MessageQueue.Event.close (some 1),
             MessageQueue.Event.enqueue ['b'], MessageQueue.Event.close (some 0)])
    ∧ ((MessageQueue.run (MessageQueue.initState 500)
          [MessageQueue.Event.enqueue ['a'], MessageQueue.Event.close (some 1),
           MessageQueue.Event.enqueue ['b'], MessageQueue.Event.close (some 0)]).1.isProcessing
          = false →
        MessageQueue.spawnArgsOf
          (MessageQueue.run (MessageQueue.initState 500)
            [MessageQueue.Event.enqueue ['a'], MessageQueue.Event.close (some 1),
             MessageQueue.Event.enqueue ['b'], MessageQueue.Event.close (some 0)]).2
          = MessageQueue.enqueueArgs 500
              [MessageQueue.Event.enqueue ['a'], MessageQueue.Event.close (some 1),
               MessageQueue.Event.enqueue ['b'], MessageQueue.Event.close (some 0)]) :=
  claim_C2_fifo 500
    [MessageQueue.Event.enqueue ['a'], MessageQueue.Event.close (some 1),
     MessageQueue.Event.enqueue ['b'], MessageQueue.Event.close (some 0)] (by decide)

/-- Truncation never produces the empty string from a non-empty one. -/
theorem MessageQueue.truncateMessage_ne_nil (maxLen : Nat) (message : List Char)
    (h : message ≠ []) : truncateMessage maxLen message ≠ [] := by
  rw [truncateMessage]
  split
  · exact h
  · simp [ellipsis]

/-- A loop iteration does not change the queue. -/
theorem MessageQueue.loopJump_queue (st : QState) : (loopJump st).1.queue = st.queue := by
  cases hq : st.queue <;> simp [loopJump, hq]

/-- Membership in a list with one index spliced out implies membership
in the list. -/
theorem mem_eraseIdx_imp {α : Type} (l : List α) (i : Nat) (a : α)
    (h : a ∈ l.eraseIdx i) : a ∈ l := by
  induction l generalizing i with
  | nil => simp [List.eraseIdx] at h
  | cons x xs ih =>
    cases i with
    | zero =>
      simp only [List.eraseIdx] at h
      exact List.mem_cons_of_mem x h
    | succ n =>
      simp only [List.eraseIdx] at h
      rcases List.mem_cons.mp h with h1 | h1
      · exact h1 ▸ List.mem_cons_self x xs
      · exact List.mem_cons_of_mem x (ih n h1)

/-- Membership after a shift implies membership before. -/
theorem mem_drop_one {α : Type} (l : List α) (a : α) (h : a ∈ l.drop 1) : a ∈ l := by
  cases l with
  | nil => simp at h
  | cons x xs => exact List.mem_cons_of_mem x (by simpa using h)

/-- The queue after an enqueue is the old queue with the new entry
appended, in both the idle and the busy branch. -/
theorem MessageQueue.enqueue_queue (st : QState) (message : List Char) :
    (enqueue st message).2.1.queue
      = st.queue ++ [⟨st.nextId, truncateMessage st.maxMessageLength message, st.nextId⟩] := by
  by_cases hp : st.isProcessing
  · simp [enqueue, hp]
  · simp [enqueue, hp, loopJump_queue]

/-- Every tool event preserves non-emptiness of all stored texts. -/
theorem Dispatcher.toolStep_nonempty (st : MessageQueue.QState) (e : ToolEvent)
    (h : ∀ m ∈ st.queue, m.message ≠ []) :
    ∀ m ∈ (toolStep st e).1.queue, m.message ≠ [] := by
  cases e with
  | speak msg =>
    cases msg with
    | none => simpa [toolStep, handleSpeak] using h
    | some l =>
      cases l with
      | nil => simpa [toolStep, handleSpeak] using h
      | cons c cs =>
        intro m hm
        have hm2 : m ∈ (MessageQueue.enqueue st (c :: cs)).2.1.queue := hm
        rw [MessageQueue.enqueue_queue] at hm2
        rcases List.mem_append.mp hm2 with h1 | h1
        · exact h m h1
        · simp only [List.mem_singleton] at h1
          subst h1
          exact MessageQueue.truncateMessage_ne_nil _ _ (by simp)
  | cancelMessage i =>
    intro m hm
    have hm2 : m ∈ (MessageQueue.cancel st i).1.queue := hm
    rcases hf : st.queue.findIdx? (fun q => q.id == i) with _ | j
    · simp only [MessageQueue.cancel, hf] at hm2
      exact h m hm2
    · simp only [MessageQueue.cancel, hf] at hm2
      exact h m (mem_eraseIdx_imp _ _ _ hm2)
  | resetQueue =>
    intro m hm
    by_cases hc : st.currentProcess <;>
      simp [toolStep, MessageQueue.reset, MessageQueue.stopCurrentPlayback, hc] at hm
  | close c =>
    intro m hm
    by_cases ha : st.awaiting = true
    · have hm2 : m ∈ ((MessageQueue.loopJump
          { st with currentProcess := false, awaiting := false,
                    queue := st.queue.drop 1 }).1).queue := by
        simpa [toolStep, MessageQueue.closeEv, ha, MessageQueue.resumeDrain] using hm
      rw [MessageQueue.loopJump_queue] at hm2
      exact h m (mem_drop_one _ _ hm2)
    · have ha0 : st.awaiting = false := by simpa using ha
      have hm2 : m ∈ st.queue := by
        simpa [toolStep, MessageQueue.closeEv, ha0] using hm
      exact h m hm2
  | procError =>
    intro m hm
    by_cases ha : st.awaiting = true
    · have hm2 : m ∈ ((MessageQueue.loopJump
          { st with currentProcess := false, awaiting := false,
                    queue := st.queue.drop 1 }).1).queue := by
        simpa [toolStep, MessageQueue.errorEv, ha, MessageQueue.resumeDrain] using hm
      rw [MessageQueue.loopJump_queue] at hm2
      exact h m (mem_drop_one _ _ hm2)
    · have ha0 : st.awaiting = false := by simpa using ha
      have hm2 : m ∈ st.queue := by
        simpa [toolStep, MessageQueue.errorEv, ha0] using hm
      exact h m hm2

/-- Every run of tool events preserves non-emptiness of all stored
texts. -/
theorem Dispatcher.toolRun_nonempty (evs : List ToolEvent) :
    ∀ st : MessageQueue.QState, (∀ m ∈ st.queue, m.message ≠ []) →
      ∀ m ∈ (toolRun st evs).1.queue, m.message ≠ [] := by
  induction evs with
  | nil => intro st h; simpa [toolRun] using h
  | cons e es ih =>
    intro st h
    have h1 := toolStep_nonempty st e h
    have h2 := ih (toolStep st e).1 h1
    simpa [toolRun] using h2

/-- C9 as amended: the non-emptiness validation lives in the tool
dispatcher, not in MessageQueue.enqueue: the speak handler reports a
missing or empty message synchronously as a structured failure, leaving
the queue state untouched, and therefore, along every run driven
through the tool interface, every entry ever present in the queue has a
non-empty stored (post-truncation) text. -/
theorem claim_C9_validation :
    (∀ st : MessageQueue.QState,
        Dispatcher.handleSpeak st none = (st, [], false)
        ∧ Dispatcher.handleSpeak st (some []) = (st, [], false))
    ∧ ∀ (maxLen : Nat) (evs : List Dispatcher.ToolEvent),
        ∀ m ∈ (Dispatcher.toolRun (MessageQueue.initState maxLen) evs).1.queue,
          m.message ≠ [] :=
  ⟨fun _ => ⟨rfl, rfl⟩,
   fun maxLen evs =>
     Dispatcher.toolRun_nonempty evs (MessageQueue.initState maxLen)
       (by intro m hm; simp [MessageQueue.initState] at hm)⟩

/-- C9 witness: a run consisting of one valid speak call leaves an
entry with the non-empty text a in the queue, and the amended theorem
applies to it. -/
theorem claim_C9_validation_witness :
    (⟨0, ['a'], 0⟩ : MessageQueue.QueuedMessage).message ≠ [] :=
  claim_C9_validation.2 500 [Dispatcher.ToolEvent.speak (some ['a'])]
    ⟨0, ['a'], 0⟩ (by decide)

/-- A stored session id resolves to the stored session, with no state
change and no cursor advance. -/
theorem TalkbackServer.getOrCreateSession_seen (st : ServerState) (sid nm : String)
    (s : Session) (h : lookupAssoc st.sessions sid = some s) :
    getOrCreateSession st sid nm = (s, st) := by
  simp [getOrCreateSession, h]

/-- Round-robin distribution: starting from any cursor position, a
sequence of first-seen distinct session ids is assigned the voices of
the fixed pool at consecutive cursor positions modulo the pool size. -/
theorem TalkbackServer.createAll_voices (pairs : List (String × String)) :
    ∀ st : ServerState,
      (∀ p ∈ pairs, lookupAssoc st.sessions p.1 = none) →
      (pairs.map Prod.fst).Nodup →
      (createAll st pairs).1.map (fun s => s.voice)
        = (List.range pairs.length).map
            (fun k => AVAILABLE_VOICES.getD
              ((st.voiceIndex + k) % AVAILABLE_VOICES.length) "") := by
  induction pairs with
  | nil =>
    intro st _ _
    simp [createAll]
  | cons p rest ih =>
    intro st hfresh hnodup
    obtain ⟨sid, nm⟩ := p
    have hf0 : lookupAssoc st.sessions sid = none :=
      hfresh (sid, nm) (List.mem_cons_self _ _)
    have hnodup2 : (rest.map Prod.fst).Nodup := by
      simp only [List.map_cons, List.nodup_cons] at hnodup
      exact hnodup.2
    have hsid : sid ∉ rest.map Prod.fst := by
      simp only [List.map_cons, List.nodup_cons] at hnodup
      exact hnodup.1
    have hfresh2 : ∀ q ∈ rest, lookupAssoc (setAssoc st.sessions sid
        { id := sid, name := nm,
          voice := AVAILABLE_VOICES.getD
            (st.voiceIndex % AVAILABLE_VOICES.length) "" }) q.1 = none := by
      intro q hq
      rw [lookupAssoc_setAssoc]
      have hne : ¬ sid = q.1 := by
        intro hcontra
        exact hsid (hcontra ▸ List.mem_map_of_mem Prod.fst hq)
      rw [if_neg hne]
      exact hfresh q (List.mem_cons_of_mem _ hq)
    have ihh := ih
      { sessions := setAssoc st.sessions sid
          { id := sid, name := nm,
            voice := AVAILABLE_VOICES.getD
              (st.voiceIndex % AVAILABLE_VOICES.length) "" },
        voiceIndex := st.voiceIndex + 1 } hfresh2 hnodup2
    simp only [createAll, getOrCreateSession, hf0, getNextVoice, List.map_cons,
      List.length_cons]
    rw [ihh, List.range_succ_eq_map]
    simp only [List.map_cons, List.map_map, Nat.add_zero, Function.comp]
    congr 1
    apply List.map_congr_left
    intro k hk
    simp only [Function.comp_apply, Nat.succ_eq_add_one]
    have harith : st.voiceIndex + 1 + k = st.voiceIndex + (k + 1) := by omega
    rw [harith]

/-- Storing a session whose id field equals its key preserves
well-formedness of the binding list. -/
theorem SessionStorage.WF_setAssoc (sid : String) (s : Session) (hs : s.id = sid) :
    ∀ l : List (String × Session), (∀ p ∈ l, p.2.id = p.1) →
      ∀ p ∈ setAssoc l sid s, p.2.id = p.1 := by
  intro l
  induction l with
  | nil =>
    intro _ p hp
    simp only [setAssoc, List.mem_singleton] at hp
    subst hp
    exact hs
  | cons q rest ih =>
    intro hwf p hp
    obtain ⟨k1, w⟩ := q
    by_cases h1 : k1 = sid
    · simp only [setAssoc, h1, if_true] at hp
      rcases List.mem_cons.mp hp with h2 | h2
      · subst h2
        simpa [h1] using hs
      · exact hwf p (List.mem_cons_of_mem _ h2)
    · simp only [setAssoc, h1, if_false] at hp
      rcases List.mem_cons.mp hp with h2 | h2
      · subst h2
        exact hwf (k1, w) (List.mem_cons_self _ _)
      · exact ih (fun q2 hq2 => hwf q2 (List.mem_cons_of_mem _ hq2)) p h2

/-- Reloading a well-formed, in-sync storage file reconstructs the same
lookups. -/
theorem SessionStorage.get_mk_file (st : State) (hwf : WF st)
    (hsync : st.file = some (some (st.sessions.map Prod.snd))) (sid : String) :
    get (mk st.file) sid = get st sid := by
  rw [hsync]
  show lookupAssoc ((st.sessions.map Prod.snd).map (fun q => (q.id, q))) sid = get st sid
  rw [List.map_map]
  have hps : ∀ p ∈ st.sessions, ((fun q => ((q : Session).id, q)) ∘ Prod.snd) p = id p := by
    intro p hp
    obtain ⟨k, v⟩ := p
    have hid : v.id = k := hwf (k, v) hp
    simp [Function.comp, hid]
  rw [List.map_congr_left hps, List.map_id]
  rfl

/-- After a successful set, a fresh storage instance constructed over
the written file resolves the stored key to the stored session. -/
theorem SessionStorage.get_mk_set (st : State) (sid : String) (s : Session)
    (hwf : WF st) (hs : s.id = sid) :
    get (mk ((set true st sid s).file)) sid = some s := by
  have hwf2 : ∀ p ∈ setAssoc st.sessions sid s, p.2.id = p.1 :=
    WF_setAssoc sid s hs st.sessions hwf
  show lookupAssoc (((setAssoc st.sessions sid s).map Prod.snd).map
    (fun q => (q.id, q))) sid = some s
  rw [List.map_map]
  have hps : ∀ p ∈ setAssoc st.sessions sid s,
      ((fun q => ((q : Session).id, q)) ∘ Prod.snd) p = id p := by
    intro p hp
    obtain ⟨k, v⟩ := p
    have hid : v.id = k := hwf2 (k, v) hp
    simp [Function.comp, hid]
  rw [List.map_congr_left hps, List.map_id]
  rw [lookupAssoc_setAssoc]
  simp

/-- C5: round-robin voice assignment and stability: the k-th first-seen
session id is assigned the pool voice at position base plus k modulo
the pool size; a later call with an already-seen id returns the stored
session unchanged; and, in the registry over the durable store, an id
resolved once resolves to the very same session record (voice and name
included) from a fresh registry instance constructed over the persisted
file, whatever random name and cursor that fresh instance starts with. -/
theorem claim_C5_round_robin_stability :
    (∀ (st : TalkbackServer.ServerState) (pairs : List (String × String)),
      (∀ p ∈ pairs, lookupAssoc st.sessions p.1 = none) →
      (pairs.map Prod.fst).Nodup →
      (TalkbackServer.createAll st pairs).1.map (fun s => s.voice)
        = (List.range pairs.length).map
            (fun k => TalkbackServer.AVAILABLE_VOICES.getD
              ((st.voiceIndex + k) % TalkbackServer.AVAILABLE_VOICES.length) ""))
    ∧ (∀ (st : TalkbackServer.ServerState) (sid nm : String) (s : TalkbackServer.Session),
        lookupAssoc st.sessions sid = some s →
        TalkbackServer.getOrCreateSession st sid nm = (s, st))
    ∧ (∀ (r : Registry.State) (sid nm nm2 : String) (base : Nat),
        SessionStorage.WF r.storage →
        r.storage.file = some (some (r.storage.sessions.map Prod.snd)) →
        (Registry.getOrCreate
            (Registry.mk ((Registry.getOrCreate r sid nm).2.storage.file) base) sid nm2).1
          = (Registry.getOrCreate r sid nm).1) := by
  refine ⟨fun st pairs h1 h2 => TalkbackServer.createAll_voices pairs st h1 h2,
    fun st sid nm s h => TalkbackServer.getOrCreateSession_seen st sid nm s h, ?_⟩
  intro r sid nm nm2 base hwf hsync
  rcases hget : SessionStorage.get r.storage sid with _ | s
  · have hr : Registry.getOrCreate r sid nm
        = ({ id := sid, name := nm,
             voice := TalkbackServer.AVAILABLE_VOICES.getD
                        (r.voiceIndex % TalkbackServer.AVAILABLE_VOICES.length) "",
             enabled := false },
           { storage := SessionStorage.set true r.storage sid
                          { id := sid, name := nm,
                            voice := TalkbackServer.AVAILABLE_VOICES.getD
                                       (r.voiceIndex % TalkbackServer.AVAILABLE_VOICES.length) "",
                            enabled := false },
             voiceIndex := r.voiceIndex + 1 }) := by
      simp [Registry.getOrCreate, hget]
    rw [hr]
    have h1 : SessionStorage.get (SessionStorage.mk ((SessionStorage.set true r.storage sid
        { id := sid, name := nm,
          voice := TalkbackServer.AVAILABLE_VOICES.getD
                     (r.voiceIndex % TalkbackServer.AVAILABLE_VOICES.length) "",
          enabled := false }).file)) sid
        = some { id := sid, name := nm,
                 voice := TalkbackServer.AVAILABLE_VOICES.getD
                            (r.voiceIndex % TalkbackServer.AVAILABLE_VOICES.length) "",
                 enabled := false } :=
      SessionStorage.get_mk_set r.storage sid _ hwf rfl
    simp only [Registry.getOrCreate, Registry.mk]
    rw [h1]
  · have hr : Registry.getOrCreate r sid nm = (s, r) := by
      simp [Registry.getOrCreate, hget]
    rw [hr]
    have h1 : SessionStorage.get (SessionStorage.mk r.storage.file) sid = some s := by
      rw [SessionStorage.get_mk_file r.storage hwf hsync sid]
      exact hget
    simp only [Registry.getOrCreate, Registry.mk]
    rw [h1]

/-- C5 witness: two fresh ids get the first two pool voices Alex and
Daniel; a repeated lookup of s1 returns its stored record unchanged;
and after creating s1 in a registry over an empty persisted store, a
fresh registry built from the written file resolves s1 to the same
record. -/
theorem claim_C5_witness :
    ((TalkbackServer.createAll ⟨[], 0⟩ [("s1", "Riley"), ("s2", "Morgan")]).1.map
        (fun s => s.voice) = ["Alex", "Daniel"])
    ∧ TalkbackServer.getOrCreateSession
        ⟨[("s1", ⟨"s1", "Riley", "Alex"⟩)], 1⟩ "s1" "Quinn"
        = (⟨"s1", "Riley", "Alex"⟩, ⟨[("s1", ⟨"s1", "Riley", "Alex"⟩)], 1⟩)
    ∧ (Registry.getOrCreate (Registry.mk ((Registry.getOrCreate
          (Registry.mk (some (some [])) 0) "s1" "Riley").2.storage.file) 5) "s1" "Quinn").1
        = (Registry.getOrCreate (Registry.mk (some (some [])) 0) "s1" "Riley").1 :=
  ⟨(claim_C5_round_robin_stability.1 ⟨[], 0⟩ [("s1", "Riley"), ("s2", "Morgan")]
      (by decide) (by decide)).trans (by decide),
   claim_C5_round_robin_stability.2.1 ⟨[("s1", ⟨"s1", "Riley", "Alex"⟩)], 1⟩ "s1" "Quinn"
     ⟨"s1", "Riley", "Alex"⟩ (by decide),
   claim_C5_round_robin_stability.2.2 (Registry.mk (some (some [])) 0) "s1" "Riley" "Quinn" 5
     (by intro p hp; simp [Registry.mk, SessionStorage.mk, SessionStorage.load] at hp) rfl⟩
